import Mathlib

/-
Verification of the hierarchical H3 index tree (HTree) of src/src/lib.rs.

The grid-cell collaborator (the h3ron crate) is external to the
repository, so the Cell type below is modelled from the specification's
contract for it: a cell is a base cell identifier together with the list
of refinement digits (one digit per resolution step), the ancestor at a
coarser resolution is obtained by truncating the digit list, ancestor
computation is defined only for a coarser-or-equal target resolution and
fails otherwise, and geometric containment is the prefix relation on
digit lists.  Node and HTree and their operations are translated from
the source; a panic of the original (a failed assert! or a .unwrap() of
a failed collaborator call) is modelled as the value none.
-/

set_option linter.unusedVariables false

/-- A grid cell. Modelled from the spec: an opaque identifier with an
integer resolution; realised as a base cell identifier plus the list of
refinement digits, one digit per resolution step below the base. -/
structure Cell where
  base : Nat
  digits : List Nat
  deriving DecidableEq

/-- Resolution of a cell: the number of refinement digits. -/
def Cell.resolution (c : Cell) : Nat := c.digits.length

/-- Modelled from the spec: the ancestor computation (get_parent) of the
external grid collaborator.  It is defined only when the requested
resolution is coarser than or equal to the resolution of the cell; for
a strictly finer target resolution the collaborator fails, modelled as
none (the source calls .unwrap() on the result, so none there is a
panic). -/
def Cell.get_parent (c : Cell) (r : Nat) : Option Cell :=
  if r ≤ c.resolution then some ⟨c.base, c.digits.take r⟩ else none

/-- Modelled from the spec: the geometric containment test
(is_parent_of / is_ancestor_of) of the external grid collaborator.  A
cell is an ancestor-or-self of another when both share the base cell and
its digit list is a prefix of the other's digit list; in particular the
relation is reflexive. -/
def Cell.is_parent_of (p c : Cell) : Bool :=
  decide (p.base = c.base) && p.digits.isPrefixOf c.digits

/-- Lexicographic comparison of digit lists. -/
def listLt : List Nat → List Nat → Bool
  | [], [] => false
  | [], _ :: _ => true
  | _ :: _, [] => false
  | a :: as, b :: bs => decide (a < b) || (decide (a = b) && listLt as bs)

/-- Modelled from the spec: the total order on cells required for the
deterministic sorted storage of nodes (the derived Ord of H3Cell in the
source). -/
def Cell.lt (a b : Cell) : Bool :=
  decide (a.base < b.base) || (decide (a.base = b.base) && listLt a.digits b.digits)

/-- A node of the tree: one grid cell and optionally its refined
children one resolution level finer (struct Node of the source). -/
inductive Node where
  | mk (hex : Cell) (children : Option (List Node))

/-- The hex field of a node. -/
def Node.hex : Node → Cell
  | .mk h _ => h

/-- The children field of a node. -/
def Node.children : Node → Option (List Node)
  | .mk _ c => c

/-- Node::new of the source: a childless node. -/
def Node.new (hex : Cell) : Node := .mk hex none

/-- Node::resolution of the source. -/
def Node.resolution (n : Node) : Nat := n.hex.resolution

/-- Search of a sorted node vector for the node with the given hex,
modelling the Ok case of binary_search_by_key in the source: on the
sorted, duplicate-free vectors the tree maintains the match, when
present, is unique, so the first-match scan returns exactly the element
the binary search finds. -/
def findNode (key : Cell) : List Node → Option Node
  | [] => none
  | c :: cs => if c.hex = key then some c else findNode key cs

/-- Whether some node of the list carries the given hex, i.e. whether
binary_search_by_key returns Ok. -/
def hasNode (key : Cell) : List Node → Bool
  | [] => false
  | c :: cs => decide (c.hex = key) || hasNode key cs

/-- Insertion of a node at the position a failed binary search reports:
before the first element whose hex is not smaller than the new node's
hex.  This models children.insert(pos, node) of the source on the
sorted vectors the tree maintains. -/
def insertSortedNode (m : Node) : List Node → List Node
  | [] => [m]
  | c :: cs => if Cell.lt c.hex m.hex then c :: insertSortedNode m cs else m :: c :: cs

/-- Replacement of the node carrying the given hex by the result of f,
modelling the in-place children[pos].insert(..) at the Ok position of
the binary search; f returning none models a panic there. -/
def updateMatching (f : Node → Option Node) (key : Cell) : List Node → Option (List Node)
  | [] => some []
  | c :: cs =>
    match (if c.hex = key then f c else some c) with
    | none => none
    | some c2 =>
      match updateMatching f key cs with
      | none => none
      | some cs2 => some (c2 :: cs2)

/-- Node::insert of the source, with a panic modelled as none.  The fuel
argument bounds the recursion depth; every theorem below supplies fuel
exceeding the resolution of the inserted cell, which is enough for every
run it talks about, so fuel exhaustion never decides a stated result.
The order of effects is the source's: the assertion runs first, then the
promotion (which unwraps the collaborator's ancestor computation) and
only then the branch on the target being equal to the node's own hex. -/
def nodeInsert : Nat → Node → Cell → Option Node
  | 0, _, _ => none
  | fuel + 1, n, hex =>
    if n.resolution < hex.resolution ∨ hex = n.hex then
      match (if hex.resolution = n.resolution + 1 then some hex
             else hex.get_parent (n.resolution + 1)) with
      | none => none
      | some promoted =>
        if n.hex = hex then
          some (.mk n.hex none)
        else
          match n.children with
          | some cs =>
            if hasNode promoted cs then
              match updateMatching (fun c => nodeInsert fuel c hex) promoted cs with
              | none => none
              | some cs2 => some (.mk n.hex (some cs2))
            else
              match (if promoted = hex then some (Node.new promoted)
                     else nodeInsert fuel (Node.new promoted) hex) with
              | none => none
              | some m => some (.mk n.hex (some (insertSortedNode m cs)))
          | none =>
            match (if promoted = hex then some (Node.new promoted)
                   else nodeInsert fuel (Node.new promoted) hex) with
            | none => none
            | some m => some (.mk n.hex (some [m]))
    else none

/-- Node::contains of the source, with a panic modelled as none: the two
assertions run first, then the geometric containment test, the leaf
short-circuit, the promotion, and the binary search of the children. -/
def nodeContains : Nat → Node → Cell → Option Bool
  | 0, _, _ => none
  | fuel + 1, n, hex =>
    if hex = n.hex ∧ n.children.isSome then none
    else if hex.resolution < n.resolution then none
    else if n.hex.is_parent_of hex = false then some false
    else
      match n.children with
      | none => some true
      | some cs =>
        match hex.get_parent (n.resolution + 1) with
        | none => none
        | some promoted =>
          match findNode promoted cs with
          | some c => nodeContains fuel c hex
          | none => some false

/-- The root container (struct HTree of the source). -/
structure HTree where
  root_res : Nat
  nodes : List Node

/-- HTree::new of the source: an empty tree at the given root
resolution. -/
def HTree.new (root_res : Nat) : HTree := ⟨root_res, []⟩

/-- HTree::insert of the source, with a panic modelled as none. -/
def htreeInsert (t : HTree) (hex : Cell) : Option HTree :=
  if t.root_res ≤ hex.resolution then
    match (if hex.resolution = t.root_res then some hex
           else hex.get_parent t.root_res) with
    | none => none
    | some promoted =>
      if hasNode promoted t.nodes then
        match updateMatching (fun c => nodeInsert (hex.resolution + 1) c hex)
            promoted t.nodes with
        | none => none
        | some ns => some ⟨t.root_res, ns⟩
      else
        match (if t.root_res < hex.resolution then
                 nodeInsert (hex.resolution + 1) (Node.new promoted) hex
               else some (Node.new promoted)) with
        | none => none
        | some m => some ⟨t.root_res, insertSortedNode m t.nodes⟩
  else none

/-- HTree::contains of the source, with a panic modelled as none. -/
def htreeContains (t : HTree) (hex : Cell) : Option Bool :=
  if t.root_res ≤ hex.resolution then
    match hex.get_parent t.root_res with
    | none => none
    | some promoted =>
      match findNode promoted t.nodes with
      | some c => nodeContains (hex.resolution + 1) c hex
      | none => some false
  else none

/-- Sequential insertion of a list of cells; the first panic aborts the
whole build. -/
def insertAll : HTree → List Cell → Option HTree
  | t, [] => some t
  | t, c :: cs =>
    match htreeInsert t c with
    | none => none
    | some t2 => insertAll t2 cs

/-- The tree built by inserting the given cells, in order, into an empty
tree of the given root resolution. -/
def htreeBuild (root_res : Nat) (cells : List Cell) : Option HTree :=
  insertAll (HTree.new root_res) cells

/-- Strict order on nodes by hex, used to state sortedness. -/
def nodeLt (a b : Node) : Prop := Cell.lt a.hex b.hex = true

/-- Strict sortedness with explicit distinctness of hex values. -/
def strictNodeLt (a b : Node) : Prop := Cell.lt a.hex b.hex = true ∧ a.hex ≠ b.hex

/-- Every children vector in the subtree is strictly sorted by hex. -/
inductive SortedOK : Node → Prop where
  | leaf (hex : Cell) : SortedOK (.mk hex none)
  | branch (hex : Cell) (cs : List Node) :
      List.Pairwise strictNodeLt cs →
      (∀ m ∈ cs, SortedOK m) →
      SortedOK (.mk hex (some cs))

/-- The node's resolution is r and every child is exactly one resolution
finer than its parent, recursively. -/
inductive ResOK : Nat → Node → Prop where
  | leaf (r : Nat) (hex : Cell) : hex.resolution = r → ResOK r (.mk hex none)
  | branch (r : Nat) (hex : Cell) (cs : List Node) :
      hex.resolution = r →
      (∀ m ∈ cs, ResOK (r + 1) m) →
      ResOK r (.mk hex (some cs))

/-- Every childless node of the subtree carries a cell of L. -/
inductive LeafOK (L : List Cell) : Node → Prop where
  | leaf (hex : Cell) : hex ∈ L → LeafOK L (.mk hex none)
  | branch (hex : Cell) (cs : List Node) :
      (∀ m ∈ cs, LeafOK L m) →
      LeafOK L (.mk hex (some cs))

/-- The master shape invariant of subtrees reachable by insertions of
the cells of L: the resolution is r, a childless node carries a cell of
L, a refined node's hex is an ancestor-or-self of some cell of L, the
children vector is sorted by hex, and children satisfy the invariant one
resolution finer. -/
inductive WF (L : List Cell) : Nat → Node → Prop where
  | leaf (r : Nat) (hex : Cell) : hex.resolution = r → hex ∈ L → WF L r (.mk hex none)
  | branch (r : Nat) (hex : Cell) (cs : List Node) :
      hex.resolution = r →
      (∃ s ∈ L, hex.is_parent_of s = true) →
      List.Pairwise nodeLt cs →
      (∀ m ∈ cs, WF L (r + 1) m) →
      WF L r (.mk hex (some cs))

/-- Invariant of a root node list. -/
def TreeInv (L : List Cell) (r : Nat) (ns : List Node) : Prop :=
  List.Pairwise nodeLt ns ∧ ∀ n ∈ ns, WF L r n

/-- A query cell with no ancestor-or-self relationship to any cell of
L, in either direction. -/
def unrelated (L : List Cell) (C : Cell) : Prop :=
  ∀ s ∈ L, s.is_parent_of C = false ∧ C.is_parent_of s = false

theorem listLt_irrefl (l : List Nat) : listLt l l = false := by
  induction l with
  | nil => rfl
  | cons a as ih => simp [listLt, ih, Nat.lt_irrefl]

theorem listLt_trans {a b c : List Nat} (h1 : listLt a b = true)
    (h2 : listLt b c = true) : listLt a c = true := by
  induction a generalizing b c with
  | nil =>
    cases b with
    | nil => simp [listLt] at h1
    | cons x xs =>
      cases c with
      | nil => simp [listLt] at h2
      | cons y ys => rfl
  | cons a as ih =>
    cases b with
    | nil => simp [listLt] at h1
    | cons x xs =>
      cases c with
      | nil => simp [listLt] at h2
      | cons y ys =>
        simp only [listLt, Bool.or_eq_true, Bool.and_eq_true, decide_eq_true_eq] at h1 h2 ⊢
        rcases h1 with h1 | ⟨h1e, h1l⟩
        · rcases h2 with h2 | ⟨h2e, h2l⟩
          · exact Or.inl (Nat.lt_trans h1 h2)
          · exact Or.inl (h2e ▸ h1)
        · rcases h2 with h2 | ⟨h2e, h2l⟩
          · exact Or.inl (h1e ▸ h2)
          · exact Or.inr ⟨h1e.trans h2e, ih h1l h2l⟩

theorem listLt_total {a b : List Nat} (h : a ≠ b) :
    listLt a b = true ∨ listLt b a = true := by
  induction a generalizing b with
  | nil =>
    cases b with
    | nil => exact absurd rfl h
    | cons x xs => exact Or.inl rfl
  | cons a as ih =>
    cases b with
    | nil => exact Or.inr rfl
    | cons x xs =>
      rcases Nat.lt_trichotomy a x with h1 | h1 | h1
      · exact Or.inl (by simp [listLt, h1])
      · subst h1
        have hne : as ≠ xs := fun e => h (by rw [e])
        rcases ih hne with h2 | h2
        · exact Or.inl (by simp [listLt, h2])
        · exact Or.inr (by simp [listLt, h2])
      · exact Or.inr (by simp [listLt, h1])

theorem cellLt_irrefl (c : Cell) : Cell.lt c c = false := by
  simp [Cell.lt, listLt_irrefl, Nat.lt_irrefl]

theorem cellLt_trans {a b c : Cell} (h1 : Cell.lt a b = true)
    (h2 : Cell.lt b c = true) : Cell.lt a c = true := by
  simp only [Cell.lt, Bool.or_eq_true, Bool.and_eq_true, decide_eq_true_eq] at h1 h2 ⊢
  rcases h1 with h1 | ⟨h1e, h1l⟩
  · rcases h2 with h2 | ⟨h2e, h2l⟩
    · exact Or.inl (Nat.lt_trans h1 h2)
    · exact Or.inl (h2e ▸ h1)
  · rcases h2 with h2 | ⟨h2e, h2l⟩
    · exact Or.inl (h1e ▸ h2)
    · exact Or.inr ⟨h1e.trans h2e, listLt_trans h1l h2l⟩

theorem cellLt_total {a b : Cell} (h : a ≠ b) :
    Cell.lt a b = true ∨ Cell.lt b a = true := by
  rcases Nat.lt_trichotomy a.base b.base with h1 | h1 | h1
  · exact Or.inl (by simp [Cell.lt, h1])
  · have hne : a.digits ≠ b.digits := by
      intro e
      exact h (by cases a; cases b; simp_all)
    rcases listLt_total hne with h2 | h2
    · exact Or.inl (by simp [Cell.lt, h1, h2])
    · exact Or.inr (by simp [Cell.lt, h1, h2])
  · exact Or.inr (by simp [Cell.lt, h1])

theorem cellLt_ne {a b : Cell} (h : Cell.lt a b = true) : a ≠ b := by
  intro e
  rw [e, cellLt_irrefl] at h
  exact Bool.false_ne_true h

theorem get_parent_eq_some {c : Cell} {r : Nat} (h : r ≤ c.resolution) :
    c.get_parent r = some ⟨c.base, c.digits.take r⟩ := by
  simp [Cell.get_parent, h]

theorem get_parent_eq_none {c : Cell} {r : Nat} (h : c.resolution < r) :
    c.get_parent r = none := by
  unfold Cell.get_parent
  rw [if_neg (by omega)]

theorem is_parent_iff {p c : Cell} :
    p.is_parent_of c = true ↔ p.base = c.base ∧ p.digits <+: c.digits := by
  simp [Cell.is_parent_of, List.isPrefixOf_iff_prefix]

theorem get_parent_spec {c d : Cell} {r : Nat} (h : c.get_parent r = some d) :
    d.resolution = r ∧ d.is_parent_of c = true := by
  unfold Cell.get_parent at h
  split at h
  · next hle =>
    cases h
    refine ⟨?_, ?_⟩
    · simp only [Cell.resolution, List.length_take]
      simp only [Cell.resolution] at hle
      omega
    · exact is_parent_iff.2 ⟨rfl, List.take_prefix r c.digits⟩
  · exact absurd h (by simp)

theorem is_parent_of_refl (c : Cell) : c.is_parent_of c = true :=
  is_parent_iff.2 ⟨rfl, List.prefix_refl c.digits⟩

theorem is_parent_res_le {p c : Cell} (h : p.is_parent_of c = true) :
    p.resolution ≤ c.resolution :=
  (is_parent_iff.1 h).2.length_le

theorem is_parent_eq_of_res {p c : Cell} (h : p.is_parent_of c = true)
    (hr : p.resolution = c.resolution) : p = c := by
  rcases is_parent_iff.1 h with ⟨hb, hp⟩
  have hd : p.digits = c.digits := hp.eq_of_length (by simpa [Cell.resolution] using hr)
  cases p
  cases c
  simp_all

theorem is_parent_strict_res {p c : Cell} (h : p.is_parent_of c = true)
    (hne : p ≠ c) : p.resolution < c.resolution := by
  rcases Nat.lt_or_ge p.resolution c.resolution with h1 | h1
  · exact h1
  · exact absurd (is_parent_eq_of_res h (Nat.le_antisymm (is_parent_res_le h) h1)) hne

theorem findNode_eq_some {key : Cell} {cs : List Node} {c : Node}
    (h : findNode key cs = some c) : c ∈ cs ∧ c.hex = key := by
  induction cs with
  | nil => simp [findNode] at h
  | cons d ds ih =>
    rw [findNode] at h
    split at h
    · next hd =>
      cases h
      exact ⟨List.mem_cons_self _ _, hd⟩
    · rcases ih h with ⟨h1, h2⟩
      exact ⟨List.mem_cons_of_mem d h1, h2⟩

theorem hasNode_eq_false {key : Cell} {cs : List Node}
    (h : hasNode key cs = false) : ∀ c ∈ cs, c.hex ≠ key := by
  induction cs with
  | nil => intro c hc; simp at hc
  | cons d ds ih =>
    rw [hasNode] at h
    simp only [Bool.or_eq_false_iff, decide_eq_false_iff_not] at h
    intro c hc
    rcases List.mem_cons.1 hc with rfl | hc
    · exact h.1
    · exact ih h.2 c hc

theorem updateMatching_hexes {f : Node → Option Node} {key : Cell}
    (hf : ∀ c m, f c = some m → m.hex = c.hex) :
    ∀ {cs cs2 : List Node}, updateMatching f key cs = some cs2 →
      cs2.map Node.hex = cs.map Node.hex := by
  intro cs
  induction cs with
  | nil =>
    intro cs2 h
    rw [updateMatching] at h
    cases h
    rfl
  | cons c cs ih =>
    intro cs2 h
    rw [updateMatching] at h
    split at h
    · exact absurd h (by simp)
    · next c2 hc2 =>
      split at h
      · exact absurd h (by simp)
      · next cs3 hcs3 =>
        cases h
        have hc2hex : c2.hex = c.hex := by
          split at hc2
          · exact hf c c2 hc2
          · cases hc2; rfl
        simp [hc2hex, ih hcs3]

theorem updateMatching_mem {f : Node → Option Node} {key : Cell} :
    ∀ {cs cs2 : List Node}, updateMatching f key cs = some cs2 →
      ∀ m2 ∈ cs2, m2 ∈ cs ∨ ∃ c, c ∈ cs ∧ c.hex = key ∧ f c = some m2 := by
  intro cs
  induction cs with
  | nil =>
    intro cs2 h
    rw [updateMatching] at h
    cases h
    intro m2 hm2
    simp at hm2
  | cons c cs ih =>
    intro cs2 h
    rw [updateMatching] at h
    split at h
    · exact absurd h (by simp)
    · next c2 hc2 =>
      split at h
      · exact absurd h (by simp)
      · next cs3 hcs3 =>
        cases h
        intro m2 hm2
        rcases List.mem_cons.1 hm2 with rfl | hm2
        · split at hc2
          · next hkey => exact Or.inr ⟨c, List.mem_cons_self c cs, hkey, hc2⟩
          · cases hc2
            exact Or.inl (List.mem_cons_self _ _)
        · rcases ih hcs3 m2 hm2 with h1 | ⟨d, hd1, hd2, hd3⟩
          · exact Or.inl (List.mem_cons_of_mem c h1)
          · exact Or.inr ⟨d, List.mem_cons_of_mem c hd1, hd2, hd3⟩

theorem insertSortedNode_mem {m : Node} :
    ∀ {cs : List Node}, ∀ x ∈ insertSortedNode m cs, x = m ∨ x ∈ cs := by
  intro cs
  induction cs with
  | nil =>
    intro x hx
    rw [insertSortedNode] at hx
    rcases List.mem_singleton.1 hx with rfl
    exact Or.inl rfl
  | cons c cs ih =>
    intro x hx
    rw [insertSortedNode] at hx
    split at hx
    · rcases List.mem_cons.1 hx with rfl | hx
      · exact Or.inr (List.mem_cons_self _ _)
      · rcases ih x hx with h1 | h1
        · exact Or.inl h1
        · exact Or.inr (List.mem_cons_of_mem _ h1)
    · rcases List.mem_cons.1 hx with rfl | hx
      · exact Or.inl rfl
      · exact Or.inr hx

theorem insertSortedNode_pairwise {m : Node} :
    ∀ {cs : List Node}, List.Pairwise nodeLt cs → (∀ c ∈ cs, c.hex ≠ m.hex) →
      List.Pairwise nodeLt (insertSortedNode m cs) := by
  intro cs
  induction cs with
  | nil =>
    intro _ _
    rw [insertSortedNode]
    exact List.pairwise_singleton nodeLt m
  | cons c cs ih =>
    intro hp hne
    rcases List.pairwise_cons.1 hp with ⟨hc, hcs⟩
    rw [insertSortedNode]
    split
    · next hlt =>
      refine List.pairwise_cons.2 ⟨?_, ih hcs (fun x hx => hne x (List.mem_cons_of_mem c hx))⟩
      intro x hx
      rcases insertSortedNode_mem x hx with rfl | hx2
      · exact hlt
      · exact hc x hx2
    · next hlt =>
      have hnem : m.hex ≠ c.hex := fun e => hne c (List.mem_cons_self c cs) e.symm
      have hmc : Cell.lt m.hex c.hex = true := by
        rcases cellLt_total hnem with h2 | h2
        · exact h2
        · exact absurd h2 hlt
      refine List.pairwise_cons.2 ⟨?_, hp⟩
      intro x hx
      rcases List.mem_cons.1 hx with rfl | hx
      · exact hmc
      · exact cellLt_trans hmc (hc x hx)

theorem pairwise_of_hexes_eq {cs cs2 : List Node}
    (he : cs2.map Node.hex = cs.map Node.hex)
    (hp : List.Pairwise nodeLt cs) : List.Pairwise nodeLt cs2 := by
  have h1 : List.Pairwise (fun a b => Cell.lt a b = true) (cs.map Node.hex) :=
    List.pairwise_map.2 hp
  rw [← he] at h1
  have h2 := List.pairwise_map.1 h1
  exact h2

theorem nodeInsert_hex {fuel : Nat} {n m : Node} {hex : Cell}
    (h : nodeInsert fuel n hex = some m) : m.hex = n.hex := by
  cases fuel with
  | zero => exact absurd h (by rw [nodeInsert]; simp)
  | succ fuel =>
    rw [nodeInsert] at h
    split at h
    · split at h
      · exact absurd h (by simp)
      · split at h
        · cases h; rfl
        · split at h
          · split at h
            · split at h
              · exact absurd h (by simp)
              · cases h; rfl
            · split at h
              · exact absurd h (by simp)
              · cases h; rfl
          · split at h
            · exact absurd h (by simp)
            · cases h; rfl
    · exact absurd h (by simp)

theorem WF_mono {L L2 : List Cell} {r : Nat} {n : Node} (h : WF L r n)
    (hs : ∀ x ∈ L, x ∈ L2) : WF L2 r n := by
  induction h with
  | leaf r hex h1 h2 => exact WF.leaf r hex h1 (hs _ h2)
  | branch r hex cs h1 h2 h3 h4 ih =>
    rcases h2 with ⟨s, hsL, hps⟩
    exact WF.branch r hex cs h1 ⟨s, hs s hsL, hps⟩ h3 (fun m hm => ih m hm)

theorem promoted_spec {hex promoted : Cell} {r : Nat}
    (h : (if hex.resolution = r + 1 then some hex
          else hex.get_parent (r + 1)) = some promoted) :
    promoted.resolution = r + 1 ∧ promoted.is_parent_of hex = true := by
  split at h
  · next he =>
    cases h
    exact ⟨he, is_parent_of_refl _⟩
  · exact get_parent_spec h

theorem promoted_spec_root {hex promoted : Cell} {r : Nat}
    (h : (if hex.resolution = r then some hex else hex.get_parent r) = some promoted) :
    promoted.resolution = r ∧ promoted.is_parent_of hex = true := by
  split at h
  · next he =>
    cases h
    exact ⟨he, is_parent_of_refl _⟩
  · exact get_parent_spec h

theorem nodeInsert_spine :
    ∀ (fuel : Nat) {L : List Cell} {h0 hex : Cell} {m : Node},
      h0.is_parent_of hex = true → h0 ≠ hex →
      nodeInsert fuel (Node.new h0) hex = some m →
      WF (hex :: L) h0.resolution m := by
  intro fuel
  induction fuel with
  | zero =>
    intro L h0 hex m hanc hne h
    exact absurd h (by rw [nodeInsert]; simp)
  | succ fuel ih =>
    intro L h0 hex m hanc hne h
    rw [nodeInsert] at h
    simp only [Node.resolution, Node.hex, Node.children, Node.new] at h
    split at h
    · split at h
      · exact absurd h (by simp)
      · next promoted heq =>
        obtain ⟨hpres, hpanc⟩ := promoted_spec heq
        split at h
        · exact absurd h (by simp)
        · next m2 heq2 =>
          cases h
          have hm2 : WF (hex :: L) (h0.resolution + 1) m2 := by
            split at heq2
            · next hpe2 =>
              cases heq2
              exact WF.leaf _ promoted hpres
                (by rw [hpe2]; exact List.mem_cons_self _ _)
            · next hpe2 =>
              have hsp := @ih L promoted hex m2 hpanc hpe2 heq2
              rwa [hpres] at hsp
          refine WF.branch _ h0 [m2] rfl ⟨hex, List.mem_cons_self _ _, hanc⟩
            (List.pairwise_singleton nodeLt m2) ?_
          intro x hx
          rcases List.mem_singleton.1 hx with rfl
          exact hm2
    · next hcond =>
      exact absurd (Or.inl (is_parent_strict_res hanc hne)) hcond

theorem nodeInsert_WF :
    ∀ (fuel : Nat) {L : List Cell} {n : Node} {hex : Cell} {r : Nat} {m : Node},
      WF L r n → n.hex.is_parent_of hex = true →
      nodeInsert fuel n hex = some m → WF (hex :: L) r m := by
  intro fuel
  induction fuel with
  | zero =>
    intro L n hex r m hwf hanc h
    exact absurd h (by rw [nodeInsert]; simp)
  | succ fuel ih =>
    intro L n hex r m hwf hanc h
    cases hwf with
    | leaf r hexn hres hmem =>
      simp only [Node.hex] at hanc
      rw [nodeInsert] at h
      simp only [Node.resolution, Node.hex, Node.children] at h
      rw [hres] at h
      split at h
      · split at h
        · exact absurd h (by simp)
        · next promoted heq =>
          obtain ⟨hpres, hpanc⟩ := promoted_spec heq
          split at h
          · next hpe =>
            cases h
            exact WF.leaf r hexn hres (by rw [hpe]; exact List.mem_cons_self _ _)
          · next hpe =>
            split at h
            · exact absurd h (by simp)
            · next m2 heq2 =>
              cases h
              have hm2 : WF (hex :: L) (r + 1) m2 := by
                split at heq2
                · next hpe2 =>
                  cases heq2
                  exact WF.leaf _ promoted hpres
                    (by rw [hpe2]; exact List.mem_cons_self _ _)
                · next hpe2 =>
                  have hsp := @nodeInsert_spine fuel L promoted hex m2 hpanc hpe2 heq2
                  rwa [hpres] at hsp
              refine WF.branch r hexn [m2] hres ⟨hex, List.mem_cons_self _ _, hanc⟩
                (List.pairwise_singleton nodeLt m2) ?_
              intro x hx
              rcases List.mem_singleton.1 hx with rfl
              exact hm2
      · exact absurd h (by simp)
    | branch r hexn cs hres hcomp hpw hch =>
      simp only [Node.hex] at hanc
      rw [nodeInsert] at h
      simp only [Node.resolution, Node.hex, Node.children] at h
      rw [hres] at h
      split at h
      · split at h
        · exact absurd h (by simp)
        · next promoted heq =>
          obtain ⟨hpres, hpanc⟩ := promoted_spec heq
          split at h
          · next hpe =>
            cases h
            exact WF.leaf r hexn hres (by rw [hpe]; exact List.mem_cons_self _ _)
          · next hpe =>
            split at h
            · next hhas =>
              split at h
              · exact absurd h (by simp)
              · next cs2 hupd =>
                cases h
                refine WF.branch r hexn cs2 hres ⟨hex, List.mem_cons_self _ _, hanc⟩
                  (pairwise_of_hexes_eq
                    (updateMatching_hexes (fun c m hm => nodeInsert_hex hm) hupd) hpw) ?_
                intro m2 hm2
                rcases updateMatching_mem hupd m2 hm2 with hold | ⟨c, hc, hchex, hfc⟩
                · exact WF_mono (hch m2 hold) (fun x hx => List.mem_cons_of_mem _ hx)
                · exact ih (hch c hc) (by rw [hchex]; exact hpanc) hfc
            · next hhas =>
              have hhas2 : hasNode promoted cs = false := by simpa using hhas
              split at h
              · exact absurd h (by simp)
              · next m2 heq2 =>
                cases h
                have hm2hex : m2.hex = promoted := by
                  split at heq2
                  · cases heq2; rfl
                  · exact nodeInsert_hex heq2
                have hm2 : WF (hex :: L) (r + 1) m2 := by
                  split at heq2
                  · next hpe2 =>
                    cases heq2
                    exact WF.leaf _ promoted hpres
                      (by rw [hpe2]; exact List.mem_cons_self _ _)
                  · next hpe2 =>
                    have hsp := @nodeInsert_spine fuel L promoted hex m2 hpanc hpe2 heq2
                    rwa [hpres] at hsp
                refine WF.branch r hexn _ hres ⟨hex, List.mem_cons_self _ _, hanc⟩
                  (insertSortedNode_pairwise hpw ?_) ?_
                · intro c hc
                  rw [hm2hex]
                  exact hasNode_eq_false hhas2 c hc
                · intro x hx
                  rcases insertSortedNode_mem x hx with rfl | hold
                  · exact hm2
                  · exact WF_mono (hch x hold) (fun y hy => List.mem_cons_of_mem _ hy)
      · exact absurd h (by simp)

theorem htreeInsert_inv {L : List Cell} {t t2 : HTree} {hex : Cell}
    (hinv : TreeInv L t.root_res t.nodes) (h : htreeInsert t hex = some t2) :
    t2.root_res = t.root_res ∧ TreeInv (hex :: L) t.root_res t2.nodes := by
  obtain ⟨hpw, hwf⟩ := hinv
  unfold htreeInsert at h
  split at h
  · next hle =>
    split at h
    · exact absurd h (by simp)
    · next promoted heq =>
      obtain ⟨hpres, hpanc⟩ := promoted_spec_root heq
      split at h
      · next hhas =>
        split at h
        · exact absurd h (by simp)
        · next ns2 hupd =>
          cases h
          refine ⟨rfl, pairwise_of_hexes_eq
            (updateMatching_hexes (fun c m hm => nodeInsert_hex hm) hupd) hpw, ?_⟩
          intro n hn
          rcases updateMatching_mem hupd n hn with hold | ⟨c, hc, hchex, hfc⟩
          · exact WF_mono (hwf n hold) (fun x hx => List.mem_cons_of_mem _ hx)
          · exact nodeInsert_WF _ (hwf c hc) (by rw [hchex]; exact hpanc) hfc
      · next hhas =>
        have hhas2 : hasNode promoted t.nodes = false := by simpa using hhas
        split at h
        · exact absurd h (by simp)
        · next m heq2 =>
          cases h
          have hmhex : m.hex = promoted := by
            split at heq2
            · exact nodeInsert_hex heq2
            · cases heq2; rfl
          have hmwf : WF (hex :: L) t.root_res m := by
            split at heq2
            · next hlt =>
              have hne : promoted ≠ hex := by
                intro e
                rw [e] at hpres
                omega
              have hsp := @nodeInsert_spine (hex.resolution + 1) L promoted hex m hpanc hne heq2
              rwa [hpres] at hsp
            · next hlt =>
              cases heq2
              have hre : hex.resolution = t.root_res := by omega
              have hpe : promoted = hex :=
                is_parent_eq_of_res hpanc (by rw [hpres, hre])
              exact WF.leaf _ promoted hpres
                (by rw [hpe]; exact List.mem_cons_self _ _)
          refine ⟨rfl, insertSortedNode_pairwise hpw ?_, ?_⟩
          · intro c hc
            rw [hmhex]
            exact hasNode_eq_false hhas2 c hc
          · intro n hn
            rcases insertSortedNode_mem n hn with rfl | hold
            · exact hmwf
            · exact WF_mono (hwf n hold) (fun x hx => List.mem_cons_of_mem _ hx)
  · exact absurd h (by simp)

theorem insertAll_inv :
    ∀ (cells : List Cell) {t T : HTree} {L : List Cell},
      TreeInv L t.root_res t.nodes → insertAll t cells = some T →
      T.root_res = t.root_res ∧ TreeInv (cells ++ L) t.root_res T.nodes := by
  intro cells
  induction cells with
  | nil =>
    intro t T L hinv h
    rw [insertAll] at h
    cases h
    exact ⟨rfl, hinv⟩
  | cons c cs ih =>
    intro t T L hinv h
    rw [insertAll] at h
    split at h
    · exact absurd h (by simp)
    · next t2 hins =>
      obtain ⟨hroot, hinv2⟩ := htreeInsert_inv hinv hins
      obtain ⟨hr2, hpw2, hwf2⟩ := ih (by rw [hroot]; exact hinv2) h
      refine ⟨by rw [hr2, hroot], hpw2, ?_⟩
      intro n hn
      have hw := hwf2 n hn
      rw [hroot] at hw
      refine WF_mono hw ?_
      intro x hx
      simp only [List.mem_append, List.mem_cons] at hx ⊢
      tauto

theorem htreeBuild_inv {root : Nat} {L : List Cell} {T : HTree}
    (h : htreeBuild root L = some T) :
    T.root_res = root ∧ TreeInv L root T.nodes := by
  have hstart : TreeInv ([] : List Cell) (HTree.new root).root_res (HTree.new root).nodes :=
    ⟨List.Pairwise.nil, by intro n hn; simp [HTree.new] at hn⟩
  obtain ⟨hr, hpw, hwf⟩ := insertAll_inv L hstart h
  refine ⟨hr, hpw, ?_⟩
  intro n hn
  refine WF_mono (hwf n hn) ?_
  intro x hx
  simpa using hx

theorem strictify {cs : List Node} (h : List.Pairwise nodeLt cs) :
    List.Pairwise strictNodeLt cs := by
  refine h.imp ?_
  intro a b hab
  refine ⟨hab, ?_⟩
  intro e
  have hab2 := hab
  unfold nodeLt at hab2
  rw [e, cellLt_irrefl] at hab2
  exact Bool.false_ne_true hab2

theorem WF_sortedOK {L : List Cell} {r : Nat} {n : Node} (h : WF L r n) :
    SortedOK n := by
  induction h with
  | leaf r hex h1 h2 => exact SortedOK.leaf hex
  | branch r hex cs h1 h2 h3 h4 ih =>
    exact SortedOK.branch hex cs (strictify h3) (fun m hm => ih m hm)

theorem WF_resOK {L : List Cell} {r : Nat} {n : Node} (h : WF L r n) :
    ResOK r n := by
  induction h with
  | leaf r hex h1 h2 => exact ResOK.leaf r hex h1
  | branch r hex cs h1 h2 h3 h4 ih =>
    exact ResOK.branch r hex cs h1 (fun m hm => ih m hm)

theorem WF_leafOK {L : List Cell} {r : Nat} {n : Node} (h : WF L r n) :
    LeafOK L n := by
  induction h with
  | leaf r hex h1 h2 => exact LeafOK.leaf hex h2
  | branch r hex cs h1 h2 h3 h4 ih =>
    exact LeafOK.branch hex cs (fun m hm => ih m hm)

theorem nodeContains_unrelated {L : List Cell} {C : Cell} (hu : unrelated L C) :
    ∀ (fuel : Nat) {r : Nat} {n : Node}, WF L r n → r ≤ C.resolution →
      C.resolution < r + fuel → nodeContains fuel n C = some false := by
  intro fuel
  induction fuel with
  | zero =>
    intro r n hwf h1 h2
    omega
  | succ fuel ih =>
    intro r n hwf h1 h2
    cases hwf with
    | leaf r hexn hres hmem =>
      rw [nodeContains]
      simp only [Node.resolution, Node.hex, Node.children]
      rw [hres]
      rw [if_neg (by simp), if_neg (by omega), if_pos (hu hexn hmem).1]
    | branch r hexn cs hres hcomp hpw hch =>
      have hCne : C ≠ hexn := by
        intro e
        rcases hcomp with ⟨s, hsL, hps⟩
        rw [← e] at hps
        rw [(hu s hsL).2] at hps
        exact Bool.false_ne_true hps
      rw [nodeContains]
      simp only [Node.resolution, Node.hex, Node.children]
      rw [hres]
      rw [if_neg (by intro hc; exact hCne hc.1), if_neg (by omega)]
      by_cases hpar : hexn.is_parent_of C = false
      · rw [if_pos hpar]
      · rw [if_neg hpar]
        have hpar2 : hexn.is_parent_of C = true := by
          cases hb : hexn.is_parent_of C
          · exact absurd hb hpar
          · rfl
        have hrlt : r < C.resolution := by
          rcases Nat.lt_or_ge r C.resolution with h3 | h3
          · exact h3
          · exact absurd (is_parent_eq_of_res hpar2 (by omega)).symm hCne
        split
        · next heqp =>
          rw [get_parent_eq_some (by omega)] at heqp
          exact absurd heqp (by simp)
        · next promoted heqp =>
          split
          · next c hf =>
            obtain ⟨hc1, hc2⟩ := findNode_eq_some hf
            exact ih (hch c hc1) (by omega) (by omega)
          · rfl

theorem contains_false_of_unrelated_aux {root : Nat} {L : List Cell} {T : HTree}
    {C : Cell} (hb : htreeBuild root L = some T) (hle : root ≤ C.resolution)
    (hu : unrelated L C) : htreeContains T C = some false := by
  obtain ⟨hr, hpw, hwf⟩ := htreeBuild_inv hb
  unfold htreeContains
  rw [hr]
  rw [if_pos hle]
  split
  · next heqp =>
    rw [get_parent_eq_some hle] at heqp
    exact absurd heqp (by simp)
  · next promoted heqp =>
    split
    · next c hf =>
      obtain ⟨hc1, hc2⟩ := findNode_eq_some hf
      exact nodeContains_unrelated hu (C.resolution + 1) (hwf c hc1) hle (by omega)
    · rfl

/-- Claim C1.  The coverage property fails on the code: the cell with
digits [1] is a descendant of the inserted cell with empty digits (the
first conjunct), the build of the two cells succeeds, and yet contains
answers false for it, because inserting the finer cell [0] under the
fully-covered childless root leaf recorded children there and thereby
discarded the leaf's full coverage. -/
theorem coverage_lost_after_refining_leaf :
    Cell.is_parent_of ⟨0, []⟩ ⟨0, [1]⟩ = true ∧
    (htreeBuild 0 [⟨0, []⟩, ⟨0, [0]⟩]).bind (fun t => htreeContains t ⟨0, [1]⟩) =
      some false :=
  ⟨rfl, rfl⟩

/-- Claim C2.  Insertion order changes the observable contains
behaviour of the same two-element set: inserting the coarse cell first
and then its descendant builds a tree that answers false at the sibling
descendant [1], while the reverse order aborts while inserting the
coarse cell (its node already exists, and the insert computes the
promotion at a finer resolution than the target before coalescing,
which fails the collaborator's ancestor contract). -/
theorem insertion_order_changes_contains :
    (htreeBuild 0 [⟨0, []⟩, ⟨0, [0]⟩]).bind (fun t => htreeContains t ⟨0, [1]⟩) =
      some false ∧
    htreeBuild 0 [⟨0, [0]⟩, ⟨0, []⟩] = none :=
  ⟨rfl, rfl⟩

/-- Claim C3.  Inserting a cell equal to an existing node's hex does not
coalesce: it aborts.  Building from the single finer cell succeeds and
creates a root node for the empty-digit ancestor, but then inserting
that ancestor itself reaches the node with equal hex and panics inside
the promotion, before the coalescing branch. -/
theorem coalescing_insert_aborts :
    (htreeBuild 0 [⟨0, [0, 0]⟩]).isSome = true ∧
    htreeBuild 0 [⟨0, [0, 0]⟩, ⟨0, []⟩] = none :=
  ⟨rfl, rfl⟩

/-- Claim C7.  Inserting the same cell twice is not idempotent: the
first insert of the root-resolution cell succeeds and yields the
singleton leaf tree, while the second insert of the identical cell
aborts in the promotion computed before the coalescing branch. -/
theorem duplicate_insert_aborts :
    htreeBuild 0 [⟨0, []⟩] = some ⟨0, [Node.mk ⟨0, []⟩ none]⟩ ∧
    htreeBuild 0 [⟨0, []⟩, ⟨0, []⟩] = none :=
  ⟨rfl, rfl⟩

/-- Claim C9.  The promotion is not computed only when the target
differs from the node's hex: for a node whose hex equals the inserted
target, the insert precondition holds (first conjunct), the ancestor
computation at the node's resolution plus one is outside its domain and
fails (second conjunct), and Node::insert, which performs exactly that
computation before the equal-hex branch, aborts (third conjunct). -/
theorem promotion_out_of_domain_on_equal_hex :
    ((Node.new ⟨1, []⟩).resolution < Cell.resolution ⟨1, []⟩ ∨
      (⟨1, []⟩ : Cell) = (Node.new ⟨1, []⟩).hex) ∧
    Cell.get_parent ⟨1, []⟩ ((Node.new ⟨1, []⟩).resolution + 1) = none ∧
    nodeInsert 1 (Node.new ⟨1, []⟩) ⟨1, []⟩ = none :=
  ⟨Or.inr rfl, rfl, rfl⟩

/-- Claim C4.  Negative coverage holds: if the tree was built from the
cells of L, the query cell is at least as fine as the root resolution
and has no ancestor-or-self relationship in either direction with any
cell of L, then contains answers false. -/
theorem contains_false_of_unrelated (root : Nat) (L : List Cell) (T : HTree)
    (C : Cell) (hb : htreeBuild root L = some T) (hle : root ≤ C.resolution)
    (hu : unrelated L C) : htreeContains T C = some false :=
  contains_false_of_unrelated_aux hb hle hu

/-- Witness for claim C4 at a concrete input. -/
theorem contains_false_of_unrelated_witness :
    htreeContains ⟨0, [Node.mk ⟨0, []⟩ (some [Node.mk ⟨0, [0]⟩ none])]⟩ ⟨0, [1]⟩ =
      some false :=
  contains_false_of_unrelated 0 [⟨0, [0]⟩]
    ⟨0, [Node.mk ⟨0, []⟩ (some [Node.mk ⟨0, [0]⟩ none])]⟩ ⟨0, [1]⟩ rfl
    (by decide) (by unfold unrelated; decide)

/-- Claim C5.  After any successful build, the root node vector and,
recursively, every present children vector is strictly sorted by hex
with no duplicate hex values. -/
theorem build_sorted_strict (root : Nat) (L : List Cell) (T : HTree)
    (hb : htreeBuild root L = some T) :
    List.Pairwise strictNodeLt T.nodes ∧ ∀ n ∈ T.nodes, SortedOK n := by
  obtain ⟨hr, hpw, hwf⟩ := htreeBuild_inv hb
  exact ⟨strictify hpw, fun n hn => WF_sortedOK (hwf n hn)⟩

/-- Witness for claim C5 at a concrete input. -/
theorem build_sorted_strict_witness :
    List.Pairwise strictNodeLt
      [Node.mk ⟨0, []⟩ (some [Node.mk ⟨0, [0]⟩ none, Node.mk ⟨0, [1]⟩ none])] ∧
    ∀ n ∈ [Node.mk ⟨0, []⟩ (some [Node.mk ⟨0, [0]⟩ none, Node.mk ⟨0, [1]⟩ none])],
      SortedOK n :=
  build_sorted_strict 0 [⟨0, [1]⟩, ⟨0, [0]⟩]
    ⟨0, [Node.mk ⟨0, []⟩ (some [Node.mk ⟨0, [0]⟩ none, Node.mk ⟨0, [1]⟩ none])]⟩ rfl

/-- Claim C6.  After any successful build, every top-level node has the
root resolution and, recursively, every child node's resolution is its
parent's resolution plus one. -/
theorem build_resolution_invariant (root : Nat) (L : List Cell) (T : HTree)
    (hb : htreeBuild root L = some T) : ∀ n ∈ T.nodes, ResOK root n := by
  obtain ⟨hr, hpw, hwf⟩ := htreeBuild_inv hb
  exact fun n hn => WF_resOK (hwf n hn)

/-- Witness for claim C6 at a concrete input. -/
theorem build_resolution_invariant_witness :
    ResOK 0 (Node.mk ⟨0, []⟩
      (some [Node.mk ⟨0, [0]⟩ (some [Node.mk ⟨0, [0, 1]⟩ none])])) :=
  build_resolution_invariant 0 [⟨0, [0, 1]⟩]
    ⟨0, [Node.mk ⟨0, []⟩
        (some [Node.mk ⟨0, [0]⟩ (some [Node.mk ⟨0, [0, 1]⟩ none])])]⟩ rfl
    (Node.mk ⟨0, []⟩ (some [Node.mk ⟨0, [0]⟩ (some [Node.mk ⟨0, [0, 1]⟩ none])]))
    (List.mem_cons_self _ _)

/-- Claim C8.  A cell whose resolution is strictly below the tree's
root resolution makes both insert and contains abort at the outermost
HTree-level check, for every tree state, before any recursion or
mutation: the failed insert produces no tree at all, so no partial
mutation is visible. -/
theorem coarse_resolution_abort (t : HTree) (hex : Cell)
    (h : hex.resolution < t.root_res) :
    htreeInsert t hex = none ∧ htreeContains t hex = none := by
  constructor
  · unfold htreeInsert
    rw [if_neg (by omega)]
  · unfold htreeContains
    rw [if_neg (by omega)]

/-- Witness for claim C8 at a concrete input. -/
theorem coarse_resolution_abort_witness :
    htreeInsert ⟨5, []⟩ ⟨0, []⟩ = none ∧ htreeContains ⟨5, []⟩ ⟨0, []⟩ = none :=
  coarse_resolution_abort ⟨5, []⟩ ⟨0, []⟩ (by decide)

/-- Claim C10.  After any successful build, every childless node of the
tree carries exactly one of the inserted cells; synthesized intermediate
ancestors always carry children. -/
theorem childless_nodes_are_inserted_cells (root : Nat) (L : List Cell) (T : HTree)
    (hb : htreeBuild root L = some T) : ∀ n ∈ T.nodes, LeafOK L n := by
  obtain ⟨hr, hpw, hwf⟩ := htreeBuild_inv hb
  exact fun n hn => WF_leafOK (hwf n hn)

/-- Witness for claim C10 at a concrete input. -/
theorem childless_nodes_are_inserted_cells_witness :
    LeafOK [⟨0, [0]⟩] (Node.mk ⟨0, []⟩ (some [Node.mk ⟨0, [0]⟩ none])) :=
  childless_nodes_are_inserted_cells 0 [⟨0, [0]⟩]
    ⟨0, [Node.mk ⟨0, []⟩ (some [Node.mk ⟨0, [0]⟩ none])]⟩ rfl
    (Node.mk ⟨0, []⟩ (some [Node.mk ⟨0, [0]⟩ none])) (List.mem_cons_self _ _)
